import Mathlib

/-!
Verification of the adaptive quiz engine of `bot.py`.

The definitions below are a shallow embedding of the program's core:
the question bank, the learner state store backed by SQLite tables
(`users`, `topic_stats`, `attempts`), the weighted question selector
`choose_question`, and the answer handler `cb_answer`.  SQLite rows are
modelled as association lists, `REAL` weights as rationals, and the
random draws (`random.random()` and the index picked by
`random.choice`) as explicit parameters.  Python exceptions
(`KeyError` on `QDB[topic]` for an unknown topic, `TypeError` on
subscripting a `None` user row, `ValueError` on `levels.index`) are
modelled as explicit `crash` outcomes carrying the exception name.
-/

set_option maxHeartbeats 1000000

/-- One quiz question: `{"id": ..., "question": ..., "options": [...], "answer": ...}`. -/
structure Question where
  id : String
  question : String
  options : List String
  answer : String
deriving DecidableEq, Repr

/-- One topic of `questions.json`: theory text plus a difficulty-keyed map of question lists. -/
structure TopicData where
  theory : String
  questions : List (String × List Question)
deriving DecidableEq, Repr

/-- The loaded question bank `QDB` (`json.load(f)["topics"]`), an ordered key-value map. -/
abbrev Bank := List (String × TopicData)

/-- First-match association-list lookup (models dict / keyed SQL row lookup). -/
def alookup {κ β : Type} [DecidableEq κ] : List (κ × β) → κ → Option β
  | [], _ => none
  | p :: rest, k => if p.1 = k then some p.2 else alookup rest k

/-- Models `QDB[t]["questions"].get(difficulty, [])`. -/
def questionsAt (td : TopicData) (difficulty : String) : List Question :=
  (alookup td.questions difficulty).getD []

/-- A row of the `users` table. -/
structure UserState where
  username : String
  difficulty : String
  correct_streak : Nat
  wrong_streak : Nat
  active_topic : String
deriving DecidableEq, Repr

/-- The persistent store: `users`, `topic_stats` (keyed by user and topic) and `attempts`. -/
structure SysState where
  users : List (Nat × UserState)
  stats : List ((Nat × String) × ℚ)
  attempts : List (Nat × String × Bool)
deriving DecidableEq, Repr

/-- Models `INSERT OR REPLACE` on a primary-keyed table: replace the keyed row in place,
or append a fresh row when the key is absent. -/
def setRow {κ β : Type} [DecidableEq κ] (m : List (κ × β)) (k : κ) (v : β) : List (κ × β) :=
  if m.any (fun p => p.1 = k) then m.map (fun p => if p.1 = k then (k, v) else p)
  else m ++ [(k, v)]

/-- Models `get_user`: `SELECT * FROM users WHERE id = ?`, `None` when absent. -/
def get_user (st : SysState) (uid : Nat) : Option UserState :=
  alookup st.users uid

/-- Models `update_user`: `UPDATE users SET ... WHERE id = ?` — rewrites the matching row
(no-op when the id is absent). -/
def setUser (st : SysState) (uid : Nat) (f : UserState → UserState) : SysState :=
  { st with users := st.users.map (fun p => if p.1 = uid then (p.1, f p.2) else p) }

/-- Models `update_topic_weight`: read the current weight (default `1.0` when the row is
missing), clamp `w + delta` at the `0.1` floor, and `INSERT OR REPLACE` the row. -/
def update_topic_weight (st : SysState) (uid : Nat) (topic : String) (delta : ℚ) : SysState :=
  let w := (alookup st.stats (uid, topic)).getD 1
  let w' := max (1/10) (w + delta)
  { st with stats := setRow st.stats (uid, topic) w' }

/-- Models `record_attempt`: `INSERT INTO attempts VALUES(...)` — append-only log. -/
def record_attempt (st : SysState) (uid : Nat) (qid : String) (correct : Bool) : SysState :=
  { st with attempts := st.attempts ++ [(uid, qid, correct)] }

/-- The fresh `users` row inserted by `ensure_user`:
`(user_id, username or "", "easy", 0, 0, "Mixed")`. -/
def defaultUser (name : Option String) : UserState :=
  ⟨name.getD "", "easy", 0, 0, "Mixed"⟩

/-- Models `ensure_user`: create-if-absent.  When the user row is missing, insert the
default row and set every bank topic's weight to `1.0`; otherwise do nothing. -/
def ensure_user (bank : Bank) (st : SysState) (uid : Nat) (name : Option String) : SysState :=
  match get_user st uid with
  | some _ => st
  | none =>
    let st1 : SysState := { st with users := st.users ++ [(uid, defaultUser name)] }
    bank.foldl (fun s p => { s with stats := setRow s.stats (uid, p.1) 1 }) st1

/-- The list `levels = ["easy", "medium", "hard"]`. -/
def levels : List String := ["easy", "medium", "hard"]

/-- The streak update performed by `cb_answer` (lines 283–290): a correct answer
increments the correct streak and zeroes the wrong streak; an incorrect answer
zeroes the correct streak and increments the wrong streak. -/
def applyStreak (u : UserState) (correct : Bool) : UserState :=
  if correct then { u with correct_streak := u.correct_streak + 1, wrong_streak := 0 }
  else { u with correct_streak := 0, wrong_streak := u.wrong_streak + 1 }

/-- The difficulty transition of `cb_answer` (lines 292–300), as a pure function of
the re-read user row: two independent conditionals over the index of the current
difficulty in `levels`, up on correct-streak ≥ 3, down on wrong-streak ≥ 2. -/
def applyDifficulty (u : UserState) : UserState :=
  let idx := levels.indexOf u.difficulty
  let u1 := if 3 ≤ u.correct_streak ∧ idx < 2 then
    { u with difficulty := levels.getD (idx + 1) u.difficulty } else u
  if 2 ≤ u.wrong_streak ∧ 0 < idx then
    { u1 with difficulty := levels.getD (idx - 1) u1.difficulty } else u1

/-- The question lookup of `cb_answer` (lines 272–276): `QDB[topic]` may raise
`KeyError`; otherwise scan all three difficulty levels for the first id match. -/
def getQuestionById (bank : Bank) (topic qid : String) : Except String (Option Question) :=
  match alookup bank topic with
  | none => .error "KeyError"
  | some td =>
    .ok ((questionsAt td "easy" ++ questionsAt td "medium" ++ questionsAt td "hard").find?
      (fun q => q.id == qid))

/-- The outcome of one `cb_answer` invocation on the `answer|...` path. -/
inductive AnswerOutcome where
  | qNotFound : AnswerOutcome
  | answered : Bool → AnswerOutcome
  | crash : String → AnswerOutcome
deriving DecidableEq, Repr

/-- The two difficulty conditionals of `cb_answer` (lines 293–300) applied to the
store, with `u2` the re-read user row. -/
def difficultyStep (st2 : SysState) (uid : Nat) (u2 : UserState) : SysState :=
  let idx := levels.indexOf u2.difficulty
  let st3 := if 3 ≤ u2.correct_streak ∧ idx < 2 then
    setUser st2 uid (fun v => { v with difficulty := levels.getD (idx + 1) v.difficulty })
    else st2
  if 2 ≤ u2.wrong_streak ∧ 0 < idx then
    setUser st3 uid (fun v => { v with difficulty := levels.getD (idx - 1) v.difficulty })
    else st3

/-- The `answer|topic|qid|selected` path of `cb_answer` (lines 259–303), returning
the store state at the end of the handler (or at the uncaught exception) together
with the outcome.  Mirrors the code's order: question lookup, attempt append,
streak update via `update_user` (crashing with `TypeError` when the first
`get_user` returned `None`), weight update, re-read, then the two difficulty
conditionals (crashing with `ValueError` when the stored difficulty is not a
member of `levels`). -/
def cb_answer (bank : Bank) (st : SysState) (uid : Nat) (topic qid selected : String) :
    SysState × AnswerOutcome :=
  match getQuestionById bank topic qid with
  | .error e => (st, .crash e)
  | .ok none => (st, .qNotFound)
  | .ok (some q) =>
    let correct := selected == q.answer
    let st1 := record_attempt st uid qid correct
    match get_user st uid with
    | none => (st1, .crash "TypeError")
    | some u =>
      let st2 :=
        if correct then
          update_topic_weight
            (setUser st1 uid (fun v => { v with correct_streak := u.correct_streak + 1, wrong_streak := 0 }))
            uid topic (-(3/10))
        else
          update_topic_weight
            (setUser st1 uid (fun v => { v with correct_streak := 0, wrong_streak := u.wrong_streak + 1 }))
            uid topic (5/10)
      match get_user st2 uid with
      | none => (st2, .crash "TypeError")
      | some u2 =>
        if u2.difficulty ∈ levels then (difficultyStep st2 uid u2, .answered correct)
        else (st2, .crash "ValueError")

/-- Result of `choose_question`: either the normal `(t, q)` pair returned from
inside the weighted walk, or the raw pool entry `(t, q, w)` returned by the
`random.choice(pool)` fallback. -/
inductive PickResult where
  | pair : String → Question → PickResult
  | fallback : String → Question → ℚ → PickResult
deriving DecidableEq, Repr

/-- Whether a `PickResult` has the contracted `(resolvedTopic, Question)` pair shape. -/
def PickResult.isPair : PickResult → Bool
  | .pair _ _ => true
  | .fallback _ _ _ => false

/-- The topics in scope: `[topic] if topic != "Mixed" else list(QDB.keys())`. -/
def scopeTopics (bank : Bank) (topic : String) : List String :=
  if topic = "Mixed" then bank.map (fun p => p.1) else [topic]

/-- The pool-building loop of `choose_question` (lines 136–141): for each topic in
scope append its questions at the requested difficulty, each tagged with
`weights.get(t, 1.0)`; `QDB[t]` raises `KeyError` for an unknown topic. -/
def poolFor (bank : Bank) (difficulty : String) (weights : List (String × ℚ)) :
    List String → Except String (List (String × Question × ℚ))
  | [] => .ok []
  | t :: ts =>
    match alookup bank t with
    | none => .error "KeyError"
    | some td =>
      match poolFor bank difficulty weights ts with
      | .error e => .error e
      | .ok rest =>
        .ok (((questionsAt td difficulty).map (fun q => (t, q, (alookup weights t).getD 1))) ++ rest)

/-- The accumulation walk of `choose_question` (lines 147–150): return the first
pool entry whose cumulative weight reaches the draw `r`.  Generic in the ordered
field so the same walk can be analysed over `ℝ`. -/
def walkPool {α : Type} [LinearOrderedField α] :
    List (String × Question × α) → α → α → Option (String × Question)
  | [], _, _ => none
  | (t, q, w) :: rest, upto, r =>
    if r ≤ upto + w then some (t, q) else walkPool rest (upto + w) r

/-- The same walk returning the position of the chosen entry instead of the entry. -/
def walkIdx {α : Type} [LinearOrderedField α] : List α → α → α → Option ℕ
  | [], _, _ => none
  | w :: rest, upto, r =>
    if r ≤ upto + w then some 0 else (walkIdx rest (upto + w) r).map (· + 1)

/-- Models `choose_question` (lines 135–151).  `rand` models the `random.random()` draw in
`[0, 1)` and `fi` the index picked by `random.choice` in the fallback. -/
def choose_question (bank : Bank) (topic difficulty : String) (weights : List (String × ℚ))
    (rand : ℚ) (fi : Nat) : Except String (Option PickResult) :=
  match poolFor bank difficulty weights (scopeTopics bank topic) with
  | .error e => .error e
  | .ok pool =>
    if pool = [] then .ok none
    else
      let total := (pool.map (fun e => e.2.2)).sum
      let r := rand * total
      match walkPool pool 0 r with
      | some (t, q) => .ok (some (.pair t q))
      | none =>
        let e := pool.getD (fi % pool.length) ("", ⟨"", "", [], ""⟩, 0)
        .ok (some (.fallback e.1 e.2.1 e.2.2))

/-- A sequence of `update_topic_weight` calls, applied in order. -/
def applyWeightOps (st : SysState) (ops : List (Nat × String × ℚ)) : SysState :=
  ops.foldl (fun s o => update_topic_weight s o.1 o.2.1 o.2.2) st

/-! ### Concrete fixtures -/

def qEasy : Question := ⟨"q1", "easy question", ["x", "y"], "x"⟩

def qMed : Question := ⟨"q2", "medium question", ["x", "y"], "y"⟩

def qHard : Question := ⟨"q3", "hard question", ["x", "y"], "x"⟩

def bankX : Bank :=
  [("A", ⟨"theory A", [("easy", [qEasy]), ("medium", [qMed]), ("hard", [qHard])]⟩)]

def mkUser (d : String) : UserState := ⟨"u", d, 0, 0, "Mixed"⟩

def stEasy : SysState := ⟨[(1, mkUser "easy")], [((1, "A"), 1)], []⟩

def stHard : SysState := ⟨[(1, mkUser "hard")], [((1, "A"), 1)], []⟩

/-- One answer submission against the fixture bank, keeping only the store. -/
def stepA (st : SysState) (sel : String) : SysState := (cb_answer bankX st 1 "A" "q1" sel).1

def difficultyOf (st : SysState) (uid : Nat) : Option String :=
  (get_user st uid).map (fun u => u.difficulty)

def correctStreakOf (st : SysState) (uid : Nat) : Option Nat :=
  (get_user st uid).map (fun u => u.correct_streak)

/-- A bank with a topic that has questions only at the easy level. -/
def bankE : Bank := [("B", ⟨"theory B", [("easy", [qEasy])]⟩)]

/-! ### Association-list lemmas -/

@[simp] theorem alookup_nil {κ β : Type} [DecidableEq κ] (k : κ) :
    alookup ([] : List (κ × β)) k = none := rfl

@[simp] theorem alookup_cons {κ β : Type} [DecidableEq κ] (p : κ × β) (rest : List (κ × β))
    (k : κ) : alookup (p :: rest) k = if p.1 = k then some p.2 else alookup rest k := rfl

theorem alookup_of_any_eq_false {κ β : Type} [DecidableEq κ] {m : List (κ × β)} {k : κ}
    (h : m.any (fun p => p.1 = k) = false) : alookup m k = none := by
  induction m with
  | nil => rfl
  | cons p rest ih =>
    simp only [List.any_cons, Bool.or_eq_false_iff, decide_eq_false_iff_not] at h
    simp [h.1, ih h.2]

theorem alookup_append_or {κ β : Type} [DecidableEq κ] (m l : List (κ × β)) (k : κ) :
    alookup (m ++ l) k = (alookup m k).or (alookup l k) := by
  induction m with
  | nil => simp
  | cons p rest ih =>
    by_cases hp : p.1 = k <;> simp [hp, ih]

theorem alookup_map_setRow {κ β : Type} [DecidableEq κ] {m : List (κ × β)} {k : κ} {v : β}
    (h : m.any (fun p => p.1 = k) = true) :
    alookup (m.map (fun p => if p.1 = k then (k, v) else p)) k = some v := by
  induction m with
  | nil => simp at h
  | cons p rest ih =>
    by_cases hp : p.1 = k
    · simp [hp]
    · simp only [List.any_cons, decide_eq_true_eq, Bool.or_eq_true] at h
      have h' : rest.any (fun p => p.1 = k) = true := by
        rcases h with h | h
        · exact absurd h hp
        · exact h
      simp [hp, ih h']

theorem alookup_setRow_self {κ β : Type} [DecidableEq κ] (m : List (κ × β)) (k : κ) (v : β) :
    alookup (setRow m k v) k = some v := by
  unfold setRow
  by_cases ha : m.any (fun p => p.1 = k) = true
  · rw [if_pos ha]
    exact alookup_map_setRow ha
  · rw [if_neg ha]
    rw [alookup_append_or, alookup_of_any_eq_false (Bool.eq_false_iff.mpr ha)]
    simp

theorem alookup_map_setRow_ne {κ β : Type} [DecidableEq κ] (m : List (κ × β)) (k k' : κ)
    (v : β) (hk : k' ≠ k) :
    alookup (m.map (fun p => if p.1 = k then (k, v) else p)) k' = alookup m k' := by
  induction m with
  | nil => rfl
  | cons p rest ih =>
    by_cases hp : p.1 = k
    · have h2 : ¬ (p.1 = k') := by rw [hp]; exact hk.symm
      simp [hp, hk.symm, h2, ih]
    · by_cases hp' : p.1 = k' <;> simp [hp, hp', hk, hk.symm, ih]

theorem alookup_setRow_ne {κ β : Type} [DecidableEq κ] (m : List (κ × β)) (k k' : κ) (v : β)
    (hk : k' ≠ k) : alookup (setRow m k v) k' = alookup m k' := by
  unfold setRow
  split
  · exact alookup_map_setRow_ne m k k' v hk
  · rw [alookup_append_or]
    have h1 : alookup [(k, v)] k' = none := by simp [hk.symm]
    rw [h1, Option.or_none]

theorem mem_setRow {κ β : Type} [DecidableEq κ] {m : List (κ × β)} {k : κ} {v : β} {p : κ × β}
    (h : p ∈ setRow m k v) : p = (k, v) ∨ p ∈ m := by
  unfold setRow at h
  by_cases ha : m.any (fun q => q.1 = k) = true
  · rw [if_pos ha] at h
    obtain ⟨q, hq, hqe⟩ := List.mem_map.mp h
    by_cases hqk : q.1 = k
    · rw [if_pos hqk] at hqe
      exact Or.inl hqe.symm
    · rw [if_neg hqk] at hqe
      exact Or.inr (hqe ▸ hq)
  · rw [if_neg ha] at h
    rcases List.mem_append.mp h with h1 | h2
    · exact Or.inr h1
    · exact Or.inl (by simpa using h2)

theorem alookup_map_upd {κ β : Type} [DecidableEq κ] (l : List (κ × β)) (k : κ) (f : β → β) :
    alookup (l.map (fun p => if p.1 = k then (p.1, f p.2) else p)) k = (alookup l k).map f := by
  induction l with
  | nil => rfl
  | cons p rest ih =>
    by_cases hp : p.1 = k
    · simp [hp]
    · simp [hp, ih]

/-! ### Store lemmas -/

@[simp] theorem get_user_setUser (st : SysState) (uid : Nat) (f : UserState → UserState) :
    get_user (setUser st uid f) uid = (get_user st uid).map f :=
  alookup_map_upd st.users uid f

@[simp] theorem get_user_record_attempt (st : SysState) (uid uid' : Nat) (qid : String)
    (c : Bool) : get_user (record_attempt st uid' qid c) uid = get_user st uid := rfl

@[simp] theorem get_user_update_topic_weight (st : SysState) (uid uid' : Nat) (t : String)
    (d : ℚ) : get_user (update_topic_weight st uid' t d) uid = get_user st uid := rfl

@[simp] theorem stats_setUser (st : SysState) (uid : Nat) (f : UserState → UserState) :
    (setUser st uid f).stats = st.stats := rfl

@[simp] theorem stats_record_attempt (st : SysState) (uid : Nat) (qid : String) (c : Bool) :
    (record_attempt st uid qid c).stats = st.stats := rfl

@[simp] theorem stats_update_topic_weight (st : SysState) (uid : Nat) (t : String) (d : ℚ) :
    (update_topic_weight st uid t d).stats
      = setRow st.stats (uid, t) (max (1/10) (((alookup st.stats (uid, t)).getD 1) + d)) := rfl

@[simp] theorem attempts_setUser (st : SysState) (uid : Nat) (f : UserState → UserState) :
    (setUser st uid f).attempts = st.attempts := rfl

@[simp] theorem attempts_record_attempt (st : SysState) (uid : Nat) (qid : String) (c : Bool) :
    (record_attempt st uid qid c).attempts = st.attempts ++ [(uid, qid, c)] := rfl

@[simp] theorem attempts_update_topic_weight (st : SysState) (uid : Nat) (t : String) (d : ℚ) :
    (update_topic_weight st uid t d).attempts = st.attempts := rfl

@[simp] theorem users_update_topic_weight (st : SysState) (uid : Nat) (t : String) (d : ℚ) :
    (update_topic_weight st uid t d).users = st.users := rfl

@[simp] theorem stats_difficultyStep (st : SysState) (uid : Nat) (u : UserState) :
    (difficultyStep st uid u).stats = st.stats := by
  unfold difficultyStep
  by_cases c1 : 3 ≤ u.correct_streak ∧ levels.indexOf u.difficulty < 2 <;>
    by_cases c2 : 2 ≤ u.wrong_streak ∧ 0 < levels.indexOf u.difficulty <;>
      simp [c1, c2]

@[simp] theorem attempts_difficultyStep (st : SysState) (uid : Nat) (u : UserState) :
    (difficultyStep st uid u).attempts = st.attempts := by
  unfold difficultyStep
  by_cases c1 : 3 ≤ u.correct_streak ∧ levels.indexOf u.difficulty < 2 <;>
    by_cases c2 : 2 ≤ u.wrong_streak ∧ 0 < levels.indexOf u.difficulty <;>
      simp [c1, c2]

/-! ### Pure user-update lemmas -/

@[simp] theorem applyStreak_difficulty (u : UserState) (c : Bool) :
    (applyStreak u c).difficulty = u.difficulty := by cases c <;> rfl

@[simp] theorem applyStreak_username (u : UserState) (c : Bool) :
    (applyStreak u c).username = u.username := by cases c <;> rfl

@[simp] theorem applyStreak_active_topic (u : UserState) (c : Bool) :
    (applyStreak u c).active_topic = u.active_topic := by cases c <;> rfl

@[simp] theorem applyDifficulty_correct_streak (u : UserState) :
    (applyDifficulty u).correct_streak = u.correct_streak := by
  unfold applyDifficulty
  by_cases c1 : 3 ≤ u.correct_streak ∧ levels.indexOf u.difficulty < 2 <;>
    by_cases c2 : 2 ≤ u.wrong_streak ∧ 0 < levels.indexOf u.difficulty <;>
      simp [c1, c2]

@[simp] theorem applyDifficulty_wrong_streak (u : UserState) :
    (applyDifficulty u).wrong_streak = u.wrong_streak := by
  unfold applyDifficulty
  by_cases c1 : 3 ≤ u.correct_streak ∧ levels.indexOf u.difficulty < 2 <;>
    by_cases c2 : 2 ≤ u.wrong_streak ∧ 0 < levels.indexOf u.difficulty <;>
      simp [c1, c2]

theorem get_user_difficultyStep (st : SysState) (uid : Nat) (u : UserState)
    (h : get_user st uid = some u) :
    get_user (difficultyStep st uid u) uid = some (applyDifficulty u) := by
  unfold difficultyStep applyDifficulty
  by_cases c1 : 3 ≤ u.correct_streak ∧ levels.indexOf u.difficulty < 2 <;>
    by_cases c2 : 2 ≤ u.wrong_streak ∧ 0 < levels.indexOf u.difficulty <;>
      simp [c1, c2, h]

theorem cb_answer_spec (bank : Bank) (st : SysState) (uid : Nat) (topic qid selected : String)
    (q : Question) (u : UserState)
    (hq : getQuestionById bank topic qid = Except.ok (some q))
    (hu : get_user st uid = some u)
    (hd : u.difficulty ∈ levels) :
    (cb_answer bank st uid topic qid selected).2 = AnswerOutcome.answered (selected == q.answer) ∧
    get_user (cb_answer bank st uid topic qid selected).1 uid
      = some (applyDifficulty (applyStreak u (selected == q.answer))) ∧
    alookup (cb_answer bank st uid topic qid selected).1.stats (uid, topic)
      = some (max (1/10) (((alookup st.stats (uid, topic)).getD 1)
          + (if (selected == q.answer) = true then -(3/10) else 5/10))) ∧
    (cb_answer bank st uid topic qid selected).1.attempts
      = st.attempts ++ [(uid, qid, selected == q.answer)] := by
  unfold cb_answer
  rw [hq]
  cases hc : selected == q.answer with
  | false =>
    have h2 : get_user (update_topic_weight (setUser (record_attempt st uid qid false) uid
          (fun v => { v with correct_streak := 0, wrong_streak := u.wrong_streak + 1 }))
          uid topic (5/10)) uid
        = some { u with correct_streak := 0, wrong_streak := u.wrong_streak + 1 } := by
      simp [hu]
    simp [hu, hc, h2, hd, get_user_difficultyStep, applyStreak, alookup_setRow_self]
  | true =>
    have h2 : get_user (update_topic_weight (setUser (record_attempt st uid qid true) uid
          (fun v => { v with correct_streak := u.correct_streak + 1, wrong_streak := 0 }))
          uid topic (-(3/10))) uid
        = some { u with correct_streak := u.correct_streak + 1, wrong_streak := 0 } := by
      simp [hu]
    simp [hu, hc, h2, hd, get_user_difficultyStep, applyStreak, alookup_setRow_self]

/-! ### The difficulty state machine -/

theorem applyDifficulty_spec (u : UserState) (hd : u.difficulty ∈ levels)
    (hex : u.correct_streak = 0 ∨ u.wrong_streak = 0) :
    (applyDifficulty u).difficulty ∈ levels ∧
    (3 ≤ u.correct_streak ∧ u.difficulty ≠ "hard" →
       levels.indexOf (applyDifficulty u).difficulty = levels.indexOf u.difficulty + 1) ∧
    (2 ≤ u.wrong_streak ∧ u.difficulty ≠ "easy" →
       levels.indexOf (applyDifficulty u).difficulty + 1 = levels.indexOf u.difficulty) ∧
    (¬(3 ≤ u.correct_streak ∧ u.difficulty ≠ "hard") ∧
       ¬(2 ≤ u.wrong_streak ∧ u.difficulty ≠ "easy") →
       (applyDifficulty u).difficulty = u.difficulty) := by
  have hd' : u.difficulty = "easy" ∨ u.difficulty = "medium" ∨ u.difficulty = "hard" := by
    simpa [levels] using hd
  rcases hd' with h | h | h <;>
    by_cases c1 : 3 ≤ u.correct_streak <;>
      by_cases c2 : 2 ≤ u.wrong_streak <;>
        first
        | (exfalso; rcases hex with he | he <;> omega)
        | (simp +decide [applyDifficulty, h, c1, c2, levels])

/-- C1: after every answer submission the difficulty is one of
`{easy, medium, hard}` and moves by at most one adjacent step: once the
streaks are updated, correct-streak ≥ 3 away from `hard` advances exactly one
level, wrong-streak ≥ 2 away from `easy` steps down exactly one level, and
otherwise the difficulty is unchanged; in particular three consecutive
correct answers from `easy` give `medium`, and two consecutive wrong answers
from `hard` give `medium`. -/
theorem claim_C1 (bank : Bank) (st : SysState) (uid : Nat) (topic qid selected : String)
    (q : Question) (u : UserState)
    (hq : getQuestionById bank topic qid = Except.ok (some q))
    (hu : get_user st uid = some u)
    (hd : u.difficulty ∈ levels) :
    (∃ u', get_user (cb_answer bank st uid topic qid selected).1 uid = some u' ∧
      u'.difficulty ∈ levels ∧
      (3 ≤ (applyStreak u (selected == q.answer)).correct_streak ∧ u.difficulty ≠ "hard" →
        levels.indexOf u'.difficulty = levels.indexOf u.difficulty + 1) ∧
      (2 ≤ (applyStreak u (selected == q.answer)).wrong_streak ∧ u.difficulty ≠ "easy" →
        levels.indexOf u'.difficulty + 1 = levels.indexOf u.difficulty) ∧
      (¬(3 ≤ (applyStreak u (selected == q.answer)).correct_streak ∧ u.difficulty ≠ "hard") ∧
       ¬(2 ≤ (applyStreak u (selected == q.answer)).wrong_streak ∧ u.difficulty ≠ "easy") →
        u'.difficulty = u.difficulty)) ∧
    difficultyOf (stepA (stepA (stepA stEasy "x") "x") "x") 1 = some "medium" ∧
    difficultyOf (stepA (stepA stHard "y") "y") 1 = some "medium" := by
  obtain ⟨hout, hget, hstats, hatt⟩ := cb_answer_spec bank st uid topic qid selected q u hq hu hd
  have hd2 : (applyStreak u (selected == q.answer)).difficulty ∈ levels := by simpa using hd
  have hex : (applyStreak u (selected == q.answer)).correct_streak = 0 ∨
      (applyStreak u (selected == q.answer)).wrong_streak = 0 := by
    cases hb : selected == q.answer <;> simp [applyStreak]
  obtain ⟨m1, m2, m3, m4⟩ := applyDifficulty_spec (applyStreak u (selected == q.answer)) hd2 hex
  refine ⟨⟨applyDifficulty (applyStreak u (selected == q.answer)), hget, m1, ?_, ?_, ?_⟩,
    by decide, by decide⟩
  · intro hcond
    have h := m2 (by simpa using hcond)
    simpa using h
  · intro hcond
    have h := m3 (by simpa using hcond)
    simpa using h
  · intro hcond
    have h := m4 (by simpa using hcond)
    simpa using h

theorem claim_C1_w :
    (∃ u', get_user (cb_answer bankX stEasy 1 "A" "q1" "x").1 1 = some u' ∧
      u'.difficulty ∈ levels ∧
      (3 ≤ (applyStreak (mkUser "easy") ("x" == qEasy.answer)).correct_streak ∧
          (mkUser "easy").difficulty ≠ "hard" →
        levels.indexOf u'.difficulty = levels.indexOf (mkUser "easy").difficulty + 1) ∧
      (2 ≤ (applyStreak (mkUser "easy") ("x" == qEasy.answer)).wrong_streak ∧
          (mkUser "easy").difficulty ≠ "easy" →
        levels.indexOf u'.difficulty + 1 = levels.indexOf (mkUser "easy").difficulty) ∧
      (¬(3 ≤ (applyStreak (mkUser "easy") ("x" == qEasy.answer)).correct_streak ∧
          (mkUser "easy").difficulty ≠ "hard") ∧
       ¬(2 ≤ (applyStreak (mkUser "easy") ("x" == qEasy.answer)).wrong_streak ∧
          (mkUser "easy").difficulty ≠ "easy") →
        u'.difficulty = (mkUser "easy").difficulty)) ∧
    difficultyOf (stepA (stepA (stepA stEasy "x") "x") "x") 1 = some "medium" ∧
    difficultyOf (stepA (stepA stHard "y") "y") 1 = some "medium" :=
  claim_C1 bankX stEasy 1 "A" "q1" "x" qEasy (mkUser "easy")
    (by rfl) (by rfl) (by decide)

/-- C2: after every answer submission the streak counters are never both
nonzero: a correct answer increments the correct streak and zeroes the wrong
streak, an incorrect answer zeroes the correct streak and increments the
wrong streak, so a positive correct streak forces a zero wrong streak and
vice versa. -/
theorem claim_C2 (bank : Bank) (st : SysState) (uid : Nat) (topic qid selected : String)
    (q : Question) (u : UserState)
    (hq : getQuestionById bank topic qid = Except.ok (some q))
    (hu : get_user st uid = some u)
    (hd : u.difficulty ∈ levels) :
    ∃ u', get_user (cb_answer bank st uid topic qid selected).1 uid = some u' ∧
      u'.correct_streak = (if selected == q.answer then u.correct_streak + 1 else 0) ∧
      u'.wrong_streak = (if selected == q.answer then 0 else u.wrong_streak + 1) ∧
      (0 < u'.correct_streak → u'.wrong_streak = 0) ∧
      (0 < u'.wrong_streak → u'.correct_streak = 0) := by
  obtain ⟨hout, hget, hstats, hatt⟩ := cb_answer_spec bank st uid topic qid selected q u hq hu hd
  refine ⟨_, hget, ?_, ?_, ?_, ?_⟩ <;>
    cases hb : selected == q.answer <;> simp [applyStreak]

theorem claim_C2_w :
    ∃ u', get_user (cb_answer bankX stEasy 1 "A" "q1" "x").1 1 = some u' ∧
      u'.correct_streak = (if "x" == qEasy.answer then (mkUser "easy").correct_streak + 1 else 0) ∧
      u'.wrong_streak = (if "x" == qEasy.answer then 0 else (mkUser "easy").wrong_streak + 1) ∧
      (0 < u'.correct_streak → u'.wrong_streak = 0) ∧
      (0 < u'.wrong_streak → u'.correct_streak = 0) :=
  claim_C2 bankX stEasy 1 "A" "q1" "x" qEasy (mkUser "easy") (by rfl) (by rfl) (by decide)

/-- C4: an answer adjusts the answered topic's weight by exactly −0.3 when
correct and +0.5 when incorrect, clamped at the 0.1 floor; for a topic at
weight 1.0 a correct answer yields weight 0.7 and correct streak 1. -/
theorem claim_C4 (bank : Bank) (st : SysState) (uid : Nat) (topic qid selected : String)
    (q : Question) (u : UserState)
    (hq : getQuestionById bank topic qid = Except.ok (some q))
    (hu : get_user st uid = some u)
    (hd : u.difficulty ∈ levels) :
    alookup (cb_answer bank st uid topic qid selected).1.stats (uid, topic)
      = some (max (1/10) (((alookup st.stats (uid, topic)).getD 1)
          + (if (selected == q.answer) = true then -(3/10) else 5/10))) ∧
    correctStreakOf (cb_answer bank st uid topic qid selected).1 uid
      = some (if (selected == q.answer) = true then u.correct_streak + 1 else 0) ∧
    alookup (stepA stEasy "x").stats (1, "A") = some (7/10) ∧
    correctStreakOf (stepA stEasy "x") 1 = some 1 := by
  obtain ⟨hout, hget, hstats, hatt⟩ := cb_answer_spec bank st uid topic qid selected q u hq hu hd
  obtain ⟨hf1, hf2, hf3, hf4⟩ := cb_answer_spec bankX stEasy 1 "A" "q1" "x" qEasy
    (mkUser "easy") (by rfl) (by rfl) (by decide)
  refine ⟨hstats, ?_, ?_, by decide⟩
  · rw [correctStreakOf, hget]
    cases hb : selected == q.answer <;> simp [applyStreak]
  · have h1 : alookup stEasy.stats (1, "A") = some 1 := rfl
    have h2 : ("x" == qEasy.answer) = true := rfl
    rw [stepA, hf3, h1, h2]
    norm_num

theorem claim_C4_w :
    alookup (cb_answer bankX stEasy 1 "A" "q1" "x").1.stats (1, "A")
      = some (max (1/10) (((alookup stEasy.stats (1, "A")).getD 1)
          + (if ("x" == qEasy.answer) = true then -(3/10) else 5/10))) ∧
    correctStreakOf (cb_answer bankX stEasy 1 "A" "q1" "x").1 1
      = some (if ("x" == qEasy.answer) = true then (mkUser "easy").correct_streak + 1 else 0) ∧
    alookup (stepA stEasy "x").stats (1, "A") = some (7/10) ∧
    correctStreakOf (stepA stEasy "x") 1 = some 1 :=
  claim_C4 bankX stEasy 1 "A" "q1" "x" qEasy (mkUser "easy") (by rfl) (by rfl) (by decide)

/-- Every weight written by `update_topic_weight` respects the 0.1 floor. -/
theorem update_topic_weight_floor (st : SysState) (uid : Nat) (t : String) (d : ℚ)
    (h : ∀ p ∈ st.stats, 1/10 ≤ p.2) :
    ∀ p ∈ (update_topic_weight st uid t d).stats, 1/10 ≤ p.2 := by
  intro p hp
  rw [stats_update_topic_weight] at hp
  rcases mem_setRow hp with he | hm
  · rw [he]
    exact le_max_left _ _
  · exact h p hm

/-- C3: every topic weight stays at or above the 0.1 floor across any
sequence of weight adjustments with arbitrary deltas, in particular across
arbitrarily many consecutive −0.3 adjustments for correct answers. -/
theorem claim_C3 (st : SysState) (h : st.stats.all (fun p => 1/10 ≤ p.2) = true)
    (ops : List (Nat × String × ℚ)) :
    (applyWeightOps st ops).stats.all (fun p => 1/10 ≤ p.2) = true := by
  rw [List.all_eq_true] at h ⊢
  induction ops generalizing st with
  | nil => exact h
  | cons o rest ih =>
    have hstep := update_topic_weight_floor st o.1 o.2.1 o.2.2
      (fun p hp => by simpa using h p hp)
    rw [applyWeightOps, List.foldl_cons]
    exact ih _ (fun p hp => by simpa using hstep p hp)

theorem claim_C3_w :
    (applyWeightOps stEasy (List.replicate 5 (1, "A", -(3/10)))).stats.all
      (fun p => 1/10 ≤ p.2) = true :=
  claim_C3 stEasy (by norm_num [stEasy]) (List.replicate 5 (1, "A", -(3/10)))

/-- C10: a weight adjustment for a (learner, topic) pair with no stored row
treats the current weight as the default 1.0 and creates the row with the
clamped value max(0.1, 1.0 + delta). -/
theorem claim_C10 (st : SysState) (uid : Nat) (topic : String) (d : ℚ)
    (h : alookup st.stats (uid, topic) = none) :
    alookup (update_topic_weight st uid topic d).stats (uid, topic)
      = some (max (1/10) (1 + d)) := by
  rw [stats_update_topic_weight, h]
  rw [alookup_setRow_self]
  rfl

theorem claim_C10_w :
    alookup (update_topic_weight ⟨[], [], []⟩ 1 "A" (-(3/10))).stats (1, "A")
      = some (7/10) := by
  rw [claim_C10 ⟨[], [], []⟩ 1 "A" (-(3/10)) rfl]
  norm_num

theorem alookup_mem {κ β : Type} [DecidableEq κ] {m : List (κ × β)} {k : κ} {v : β}
    (h : alookup m k = some v) : (k, v) ∈ m := by
  induction m with
  | nil => simp at h
  | cons p rest ih =>
    obtain ⟨a, b⟩ := p
    rw [alookup_cons] at h
    by_cases hp : a = k
    · subst hp
      rw [if_pos rfl] at h
      cases Option.some.inj h
      exact List.mem_cons_self _ _
    · rw [if_neg hp] at h
      exact List.mem_cons_of_mem _ (ih h)

theorem initWeights_users (bank : Bank) (uid : Nat) :
    ∀ s : SysState,
      (bank.foldl (fun s p => { s with stats := setRow s.stats (uid, p.1) 1 }) s).users
        = s.users := by
  induction bank with
  | nil => intro s; rfl
  | cons p rest ih => intro s; rw [List.foldl_cons, ih]

theorem initWeights_alookup (bank : Bank) (uid : Nat) (t : String) :
    ∀ s : SysState,
      alookup (bank.foldl (fun s p => { s with stats := setRow s.stats (uid, p.1) 1 }) s).stats
          (uid, t)
        = if t ∈ bank.map (fun p => p.1) then some 1 else alookup s.stats (uid, t) := by
  induction bank with
  | nil => intro s; simp
  | cons p rest ih =>
    intro s
    rw [List.foldl_cons, ih]
    by_cases hr : t ∈ rest.map (fun p => p.1)
    · simp [hr]
    · by_cases hp : t = p.1
      · simp [hr, hp, alookup_setRow_self]
      · have hne : ((uid, t) : Nat × String) ≠ (uid, p.1) := by simp [hp]
        simp [hr, hp, alookup_setRow_ne _ _ _ _ hne]

theorem ensure_user_of_some (bank : Bank) (st : SysState) (uid : Nat) (name : Option String)
    (u : UserState) (hu : get_user st uid = some u) : ensure_user bank st uid name = st := by
  simp only [ensure_user, hu]

/-- C9: `ensure_user` is an idempotent create-if-absent: a missing learner is
created with difficulty `easy`, both streaks 0, active topic `Mixed` and
weight 1.0 for every bank topic; an existing learner's record and weights are
left completely unchanged, so a second call is a no-op. -/
theorem claim_C9 (bank : Bank) (st : SysState) (uid : Nat) (name : Option String) :
    (get_user st uid = none →
      get_user (ensure_user bank st uid name) uid = some (defaultUser name) ∧
      ∀ t ∈ bank.map (fun p => p.1),
        alookup (ensure_user bank st uid name).stats (uid, t) = some 1) ∧
    (∀ u, get_user st uid = some u → ensure_user bank st uid name = st) ∧
    (∀ name2, ensure_user bank (ensure_user bank st uid name) uid name2
      = ensure_user bank st uid name) := by
  have hcreate : get_user st uid = none →
      get_user (ensure_user bank st uid name) uid = some (defaultUser name) := by
    intro h
    have h' : alookup st.users uid = none := h
    simp only [ensure_user, h]
    rw [get_user, initWeights_users]
    show alookup (st.users ++ [(uid, defaultUser name)]) uid = _
    rw [alookup_append_or, h']
    simp
  refine ⟨fun h => ⟨hcreate h, ?_⟩, fun u hu => ensure_user_of_some bank st uid name u hu,
    fun name2 => ?_⟩
  · intro t ht
    simp only [ensure_user, h]
    rw [initWeights_alookup]
    simp [ht]
  · cases hgu : get_user st uid with
    | some u =>
      rw [ensure_user_of_some bank st uid name u hgu,
        ensure_user_of_some bank st uid name2 u hgu]
    | none =>
      exact ensure_user_of_some bank _ uid name2 _ (hcreate hgu)

theorem claim_C9_w :
    (get_user (⟨[], [], []⟩ : SysState) 1 = none →
      get_user (ensure_user bankX ⟨[], [], []⟩ 1 (some "u")) 1 = some (defaultUser (some "u")) ∧
      ∀ t ∈ bankX.map (fun p => p.1),
        alookup (ensure_user bankX ⟨[], [], []⟩ 1 (some "u")).stats (1, t) = some 1) ∧
    (∀ u, get_user (⟨[], [], []⟩ : SysState) 1 = some u →
      ensure_user bankX ⟨[], [], []⟩ 1 (some "u") = ⟨[], [], []⟩) ∧
    (∀ name2, ensure_user bankX (ensure_user bankX ⟨[], [], []⟩ 1 (some "u")) 1 name2
      = ensure_user bankX ⟨[], [], []⟩ 1 (some "u")) :=
  claim_C9 bankX ⟨[], [], []⟩ 1 (some "u")

/-- C8 (amended): only the missing-question case is a recoverable, atomic
not-found; an unknown topic raises an uncaught `KeyError` before any write,
and an unknown learner raises an uncaught `TypeError` after the attempt
record has already been appended. -/
theorem claim_C8 (bank : Bank) (st : SysState) (uid : Nat) (topic qid selected : String) :
    (alookup bank topic = none →
      cb_answer bank st uid topic qid selected = (st, AnswerOutcome.crash "KeyError")) ∧
    (∀ td, alookup bank topic = some td →
      (questionsAt td "easy" ++ questionsAt td "medium" ++ questionsAt td "hard").find?
        (fun q => q.id == qid) = none →
      cb_answer bank st uid topic qid selected = (st, AnswerOutcome.qNotFound)) ∧
    (∀ q, getQuestionById bank topic qid = Except.ok (some q) → get_user st uid = none →
      cb_answer bank st uid topic qid selected
        = (record_attempt st uid qid (selected == q.answer), AnswerOutcome.crash "TypeError")) := by
  refine ⟨?_, ?_, ?_⟩
  · intro h
    have hg : getQuestionById bank topic qid = Except.error "KeyError" := by
      simp only [getQuestionById, h]
    simp only [cb_answer, hg]
  · intro td htd hfind
    have hg : getQuestionById bank topic qid = Except.ok none := by
      simp only [getQuestionById, htd, hfind]
    simp only [cb_answer, hg]
  · intro q hq hu
    simp only [cb_answer, hq, hu]

/-- C8, counterexample to the claim as stated: submitting an answer for a
known question as an unknown learner does not produce a recoverable
not-found outcome with no state change — it crashes with a `TypeError`
after having appended the attempt record. -/
theorem claim_C8_cex :
    (cb_answer bankX ⟨[], [], []⟩ 1 "A" "q1" "x").2 = AnswerOutcome.crash "TypeError" ∧
    (cb_answer bankX ⟨[], [], []⟩ 1 "A" "q1" "x").1.attempts = [(1, "q1", true)] := by
  constructor <;> rfl

theorem claim_C8_w :
    cb_answer bankX ⟨[], [], []⟩ 1 "Unknown" "q1" "x"
      = (⟨[], [], []⟩, AnswerOutcome.crash "KeyError") :=
  (claim_C8 bankX ⟨[], [], []⟩ 1 "Unknown" "q1" "x").1 rfl

/-- When the draw does not exceed the remaining cumulative weight, the
accumulation walk always returns an entry of the pool. -/
theorem walkPool_total {pool : List (String × Question × ℚ)} :
    ∀ upto r : ℚ, pool ≠ [] → r ≤ upto + (pool.map (fun e => e.2.2)).sum →
      ∃ t q, walkPool pool upto r = some (t, q) := by
  induction pool with
  | nil => intro _ _ h _; exact absurd rfl h
  | cons e rest ih =>
    intro upto r _ hr
    obtain ⟨t, q, w⟩ := e
    by_cases hc : r ≤ upto + w
    · exact ⟨t, q, by simp [walkPool, hc]⟩
    · by_cases hrest : rest = []
      · exfalso
        apply hc
        subst hrest
        simpa using hr
      · have hr' : r ≤ (upto + w) + (rest.map (fun e => e.2.2)).sum := by
          simp only [List.map_cons, List.sum_cons] at hr
          linarith
        obtain ⟨t', q', h⟩ := ih (upto + w) r hrest hr'
        exact ⟨t', q', by simp [walkPool, hc, h]⟩

/-- C5 (amended): over a non-empty pool with nonnegative weights and a
uniform draw in `[0, 1)` the weighted walk always fires, so `choose_question`
returns a result of the contracted `(resolvedTopic, Question)` pair shape; the
`random.choice` fallback is unreachable there, and when it is forced (only
possible with a negative weight) it returns the raw pool triple instead of
a pair. -/
theorem claim_C5 (bank : Bank) (topic difficulty : String) (weights : List (String × ℚ))
    (rand : ℚ) (fi : Nat) (pool : List (String × Question × ℚ))
    (hp : poolFor bank difficulty weights (scopeTopics bank topic) = Except.ok pool)
    (hne : pool ≠ [])
    (hw : ∀ e ∈ pool, 0 ≤ e.2.2)
    (h0 : 0 ≤ rand) (h1 : rand < 1) :
    (choose_question bank topic difficulty weights rand fi).map (Option.map PickResult.isPair)
      = Except.ok (some true) := by
  have htot : 0 ≤ (pool.map (fun e => e.2.2)).sum := by
    apply List.sum_nonneg
    intro x hx
    obtain ⟨e, he, rfl⟩ := List.mem_map.mp hx
    exact hw e he
  have hr : rand * (pool.map (fun e => e.2.2)).sum
      ≤ 0 + (pool.map (fun e => e.2.2)).sum := by
    rw [zero_add]
    exact mul_le_of_le_one_left htot h1.le
  obtain ⟨t, q, h⟩ := walkPool_total 0 (rand * (pool.map (fun e => e.2.2)).sum) hne hr
  simp only [choose_question, hp, if_neg hne, h]
  rfl

/-- C5, counterexample to the claim as stated: with a negative stored weight
the walk finishes without firing and the `random.choice(pool)` fallback
returns the raw `(topic, question, weight)` triple, not a
`(resolvedTopic, Question)` pair. -/
theorem claim_C5_cex :
    choose_question bankX "A" "easy" [("A", -1)] (1/2) 0
      = Except.ok (some (PickResult.fallback "A" qEasy (-1))) ∧
    (choose_question bankX "A" "easy" [("A", -1)] (1/2) 0).map
      (Option.map PickResult.isPair) = Except.ok (some false) := by
  have hpool : poolFor bankX "easy" [("A", -1)] (scopeTopics bankX "A")
      = Except.ok [("A", qEasy, -1)] := by rfl
  have hwalk : walkPool [("A", qEasy, -1)] 0 ((1:ℚ)/2 * (-1)) = none := by
    rw [walkPool]
    rw [if_neg (by norm_num)]
    rfl
  have hsum : (([("A", qEasy, -1)] : List (String × Question × ℚ)).map
      (fun e => e.2.2)).sum = -1 := by simp
  constructor
  · simp only [choose_question, hpool]
    rw [if_neg (by simp : ¬([("A", qEasy, -1)] : List (String × Question × ℚ)) = [])]
    simp only [hsum, hwalk]
    rfl
  · simp only [choose_question, hpool]
    rw [if_neg (by simp : ¬([("A", qEasy, -1)] : List (String × Question × ℚ)) = [])]
    simp only [hsum, hwalk]
    rfl

theorem claim_C5_w :
    (choose_question bankX "A" "easy" [("A", 1)] (1/2) 0).map
      (Option.map PickResult.isPair) = Except.ok (some true) :=
  claim_C5 bankX "A" "easy" [("A", 1)] (1/2) 0 [("A", qEasy, 1)]
    (by rfl) (by simp) (by norm_num) (by norm_num) (by norm_num)

theorem alookup_of_mem_keys {κ β : Type} [DecidableEq κ] {m : List (κ × β)} {k : κ}
    (h : k ∈ m.map (fun p => p.1)) : ∃ v, alookup m k = some v := by
  induction m with
  | nil => simp at h
  | cons p rest ih =>
    by_cases hp : p.1 = k
    · exact ⟨p.2, by simp [hp]⟩
    · have h' : k ∈ rest.map (fun p => p.1) := by
        simp only [List.map_cons, List.mem_cons] at h
        rcases h with h | h
        · exact absurd h.symm hp
        · exact h
      obtain ⟨v, hv⟩ := ih h'
      exact ⟨v, by simp [hp, hv]⟩

/-- Topics that all lack questions at the requested difficulty produce an
empty pool. -/
theorem poolFor_ok_empty (bank : Bank) (difficulty : String) (weights : List (String × ℚ))
    (ts : List String)
    (hall : ∀ t ∈ ts, ∃ td, alookup bank t = some td ∧ questionsAt td difficulty = []) :
    poolFor bank difficulty weights ts = Except.ok [] := by
  induction ts with
  | nil => rfl
  | cons t ts' ih =>
    obtain ⟨td, htd, he⟩ := hall t (List.mem_cons_self _ _)
    have ih' := ih (fun t' ht' => hall t' (List.mem_cons_of_mem _ ht'))
    simp only [poolFor, htd, ih', he]
    rfl

/-- Every pool entry is a question of its topic at the requested difficulty. -/
theorem poolFor_sound (bank : Bank) (difficulty : String) (weights : List (String × ℚ)) :
    ∀ (ts : List String) (pool : List (String × Question × ℚ)),
      poolFor bank difficulty weights ts = Except.ok pool →
      ∀ e ∈ pool, ∃ td, alookup bank e.1 = some td ∧ e.2.1 ∈ questionsAt td difficulty := by
  intro ts
  induction ts with
  | nil =>
    intro pool hp e he
    simp only [poolFor] at hp
    obtain rfl := (Except.ok.inj hp).symm
    simp at he
  | cons t ts' ih =>
    intro pool hp e he
    cases htd : alookup bank t with
    | none => simp [poolFor, htd] at hp
    | some td =>
      cases hrest : poolFor bank difficulty weights ts' with
      | error err => simp [poolFor, htd, hrest] at hp
      | ok rest =>
        simp only [poolFor, htd, hrest] at hp
        have hp2 := Except.ok.inj hp
        rw [← hp2] at he
        rcases List.mem_append.mp he with h1 | h2
        · obtain ⟨qq, hq, rfl⟩ := List.mem_map.mp h1
          exact ⟨td, htd, hq⟩
        · exact ih rest hrest e h2

/-- Whatever the walk returns is an entry of the pool. -/
theorem walkPool_mem {α : Type} [LinearOrderedField α] :
    ∀ (pool : List (String × Question × α)) (upto r : α) (t : String) (q : Question),
      walkPool pool upto r = some (t, q) → ∃ w, (t, q, w) ∈ pool := by
  intro pool
  induction pool with
  | nil => intro upto r t q h; simp [walkPool] at h
  | cons e rest ih =>
    intro upto r t q h
    obtain ⟨t', q', w'⟩ := e
    rw [walkPool] at h
    by_cases hc : r ≤ upto + w'
    · rw [if_pos hc] at h
      have h2 := Option.some.inj h
      rw [Prod.mk.injEq] at h2
      obtain ⟨rfl, rfl⟩ := h2
      exact ⟨w', List.mem_cons_self _ _⟩
    · rw [if_neg hc] at h
      obtain ⟨w, hw⟩ := ih (upto + w') r t q h
      exact ⟨w, List.mem_cons_of_mem _ hw⟩

theorem getD_mem_of_lt {α : Type} (l : List α) (n : ℕ) (d : α) (h : n < l.length) :
    l.getD n d ∈ l := by
  rw [List.getD_eq_getElem?_getD, List.getElem?_eq_getElem h]
  exact List.getElem_mem h

/-- C6: an empty candidate pool (a known concrete topic with no questions at
the requested difficulty, or `Mixed` when no topic has questions at that
difficulty) makes `choose_question` return `NONE` without raising; and any
returned question — walk pick or fallback — comes from the requested
difficulty of a bank topic, never from another difficulty. -/
theorem claim_C6 (bank : Bank) (difficulty : String) (weights : List (String × ℚ))
    (rand : ℚ) (fi : Nat) :
    (∀ topic td, topic ≠ "Mixed" → alookup bank topic = some td →
      questionsAt td difficulty = [] →
      choose_question bank topic difficulty weights rand fi = Except.ok none) ∧
    ((∀ p ∈ bank, questionsAt p.2 difficulty = []) →
      choose_question bank "Mixed" difficulty weights rand fi = Except.ok none) ∧
    (∀ topic t q, choose_question bank topic difficulty weights rand fi
        = Except.ok (some (PickResult.pair t q)) →
      ∃ td, alookup bank t = some td ∧ q ∈ questionsAt td difficulty) ∧
    (∀ topic t q w, choose_question bank topic difficulty weights rand fi
        = Except.ok (some (PickResult.fallback t q w)) →
      ∃ td, alookup bank t = some td ∧ q ∈ questionsAt td difficulty) := by
  refine ⟨?_, ?_, ?_, ?_⟩
  · intro topic td htopic htd he
    have hp : poolFor bank difficulty weights (scopeTopics bank topic) = Except.ok [] := by
      apply poolFor_ok_empty
      intro t ht
      rw [scopeTopics, if_neg htopic] at ht
      simp only [List.mem_singleton] at ht
      exact ht ▸ ⟨td, htd, he⟩
    simp [choose_question, hp]
  · intro hall
    have hp : poolFor bank difficulty weights (scopeTopics bank "Mixed") = Except.ok [] := by
      apply poolFor_ok_empty
      intro t ht
      rw [scopeTopics, if_pos rfl] at ht
      obtain ⟨v, hv⟩ := alookup_of_mem_keys ht
      exact ⟨v, hv, hall (t, v) (alookup_mem hv)⟩
    simp [choose_question, hp]
  · intro topic t q h
    cases hp : poolFor bank difficulty weights (scopeTopics bank topic) with
    | error e => simp [choose_question, hp] at h
    | ok pool =>
      by_cases hpe : pool = []
      · simp [choose_question, hp, hpe] at h
      · cases hwp : walkPool pool 0 (rand * (pool.map (fun e => e.2.2)).sum) with
        | none => simp [choose_question, hp, hpe, hwp] at h
        | some tq =>
          obtain ⟨t', q'⟩ := tq
          simp only [choose_question, hp, if_neg hpe, hwp] at h
          have h2 := Option.some.inj (Except.ok.inj h)
          rw [PickResult.pair.injEq] at h2
          obtain ⟨rfl, rfl⟩ := h2
          obtain ⟨w, hw⟩ := walkPool_mem pool 0 _ t' q' hwp
          exact poolFor_sound bank difficulty weights _ pool hp (t', q', w) hw
  · intro topic t q w h
    cases hp : poolFor bank difficulty weights (scopeTopics bank topic) with
    | error e => simp [choose_question, hp] at h
    | ok pool =>
      by_cases hpe : pool = []
      · simp [choose_question, hp, hpe] at h
      · cases hwp : walkPool pool 0 (rand * (pool.map (fun e => e.2.2)).sum) with
        | some tq => simp [choose_question, hp, hpe, hwp] at h
        | none =>
          simp only [choose_question, hp, if_neg hpe, hwp] at h
          have h2 := Option.some.inj (Except.ok.inj h)
          rw [PickResult.fallback.injEq] at h2
          obtain ⟨rfl, rfl, rfl⟩ := h2
          have hlen : fi % pool.length < pool.length :=
            Nat.mod_lt _ (List.length_pos.mpr hpe)
          have hmem := getD_mem_of_lt pool (fi % pool.length) ("", ⟨"", "", [], ""⟩, 0) hlen
          exact poolFor_sound bank difficulty weights _ pool hp _ hmem

theorem claim_C6_w :
    choose_question bankE "B" "medium" [] 0 0 = Except.ok none :=
  (claim_C6 bankE "medium" [] 0 0).1 "B" ⟨"theory B", [("easy", [qEasy])]⟩
    (by decide) rfl rfl

/-- The indexed walk picks `i` exactly when the draw is at most the cumulative
weight through entry `i` and strictly above every earlier cumulative weight. -/
theorem walkIdx_eq_some_iff {α : Type} [LinearOrderedField α] :
    ∀ (ws : List α) (upto r : α) (i : ℕ),
      walkIdx ws upto r = some i ↔
        (i < ws.length ∧ r ≤ upto + ((ws.take (i+1)).sum) ∧
         ∀ j < i, upto + ((ws.take (j+1)).sum) < r) := by
  intro ws
  induction ws with
  | nil =>
    intro upto r i
    simp [walkIdx]
  | cons w rest ih =>
    intro upto r i
    rw [walkIdx]
    by_cases hc : r ≤ upto + w
    · rw [if_pos hc]
      cases i with
      | zero =>
        constructor
        · intro _
          refine ⟨Nat.succ_pos _, ?_, ?_⟩
          · simpa using hc
          · intro j hj
            exact absurd hj (Nat.not_lt_zero j)
        · intro _
          rfl
      | succ k =>
        constructor
        · intro h
          exact absurd (Option.some.inj h) (by omega)
        · rintro ⟨_, _, hall⟩
          exfalso
          have h0 := hall 0 (Nat.succ_pos _)
          simp only [List.take_succ_cons, List.take_zero, List.sum_cons, List.sum_nil,
            add_zero] at h0
          exact absurd hc (not_le.mpr h0)
    · rw [if_neg hc]
      have hcc : upto + w < r := not_le.mp hc
      cases i with
      | zero =>
        constructor
        · intro h
          obtain ⟨a, _, hak⟩ := Option.map_eq_some'.mp h
          omega
        · rintro ⟨_, hle, _⟩
          exfalso
          simp only [List.take_succ_cons, List.take_zero, List.sum_cons, List.sum_nil,
            add_zero] at hle
          exact hc hle
      | succ k =>
        constructor
        · intro h
          have ha : walkIdx rest (upto + w) r = some k := by
            cases hwk : walkIdx rest (upto + w) r with
            | none =>
              rw [hwk] at h
              simp at h
            | some a =>
              rw [hwk] at h
              simp only [Option.map_some'] at h
              have h5 : a + 1 = k + 1 := Option.some.inj h
              have h6 : a = k := by omega
              exact h6 ▸ rfl
          obtain ⟨h1, h2, h3⟩ := (ih (upto + w) r k).mp ha
          refine ⟨by simpa using Nat.succ_lt_succ h1, ?_, ?_⟩
          · rw [List.take_succ_cons, List.sum_cons]
            linarith
          · intro j hj
            cases j with
            | zero =>
              simpa using hcc
            | succ j' =>
              have h4 := h3 j' (by omega)
              rw [List.take_succ_cons, List.sum_cons]
              linarith
        · rintro ⟨h1, h2, h3⟩
          have hsub : walkIdx rest (upto + w) r = some k := by
            apply (ih (upto + w) r k).mpr
            refine ⟨by simpa using h1, ?_, ?_⟩
            · rw [List.take_succ_cons, List.sum_cons] at h2
              linarith
            · intro j hj
              have h4 := h3 (j+1) (by omega)
              rw [List.take_succ_cons, List.sum_cons] at h4
              linarith
          rw [Option.map_eq_some']
          exact ⟨k, hsub, rfl⟩

theorem take_sum_le_take_sum {ws : List ℝ} (hw : ∀ w ∈ ws, 0 ≤ w) {a b : ℕ} (hab : a ≤ b) :
    (ws.take a).sum ≤ (ws.take b).sum := by
  have h1 : (ws.take b).take a = ws.take a := by
    rw [List.take_take, min_eq_left hab]
  have h2 : ∀ x ∈ (ws.take b).drop a, 0 ≤ x := fun x hx =>
    hw x ((List.take_sublist _ _).subset ((List.drop_sublist _ _).subset hx))
  have key : (ws.take b).sum = (ws.take a).sum + ((ws.take b).drop a).sum := by
    conv_lhs => rw [← List.take_append_drop a (ws.take b)]
    rw [List.sum_append, h1]
  rw [key]
  exact le_add_of_nonneg_right (List.sum_nonneg h2)

theorem take_sum_nonneg {ws : List ℝ} (hw : ∀ w ∈ ws, 0 ≤ w) (k : ℕ) :
    0 ≤ (ws.take k).sum :=
  List.sum_nonneg (fun x hx => hw x ((List.take_sublist _ _).subset hx))

theorem vol_Ico_inter_Iic {a T : ℝ} (h0 : 0 ≤ a) (hT : a ≤ T) :
    MeasureTheory.volume (Set.Ico (0:ℝ) T ∩ Set.Iic a) = ENNReal.ofReal a := by
  rcases eq_or_lt_of_le hT with rfl | hlt
  · have hsub : Set.Ico (0:ℝ) a ⊆ Set.Iic a := fun x hx => le_of_lt hx.2
    rw [Set.inter_eq_left.mpr hsub]
    rw [Real.volume_Ico, sub_zero]
  · have he : Set.Ico (0:ℝ) T ∩ Set.Iic a = Set.Icc 0 a := by
      ext x
      simp only [Set.mem_inter_iff, Set.mem_Ico, Set.mem_Iic, Set.mem_Icc]
      constructor
      · rintro ⟨⟨h1, _⟩, h3⟩
        exact ⟨h1, h3⟩
      · rintro ⟨h1, h2⟩
        exact ⟨⟨h1, lt_of_le_of_lt h2 hlt⟩, h2⟩
    rw [he, Real.volume_Icc, sub_zero]

theorem vol_Iio_inter_Ioc {a b T : ℝ} (hab : a ≤ b) (hbT : b ≤ T) :
    MeasureTheory.volume (Set.Iio T ∩ Set.Ioc a b) = ENNReal.ofReal (b - a) := by
  rcases eq_or_lt_of_le hbT with rfl | hlt
  · have he : Set.Iio b ∩ Set.Ioc a b = Set.Ioo a b := by
      ext x
      simp only [Set.mem_inter_iff, Set.mem_Iio, Set.mem_Ioc, Set.mem_Ioo]
      constructor
      · rintro ⟨h1, h2, _⟩
        exact ⟨h2, h1⟩
      · rintro ⟨h2, h1⟩
        exact ⟨h1, h2, le_of_lt h1⟩
    rw [he, Real.volume_Ioo]
  · have he : Set.Iio T ∩ Set.Ioc a b = Set.Ioc a b :=
      Set.inter_eq_right.mpr (fun x hx => lt_of_le_of_lt hx.2 hlt)
    rw [he, Real.volume_Ioc]

/-- Draws selecting entry 0 form `[0, S₁] ∩ [0, total)`. -/
theorem walkIdx_sel_zero (ws : List ℝ) (hlen : 0 < ws.length) :
    {r : ℝ | 0 ≤ r ∧ r < ws.sum ∧ walkIdx ws 0 r = some 0}
      = Set.Ico 0 ws.sum ∩ Set.Iic ((ws.take 1).sum) := by
  ext r
  simp only [Set.mem_setOf_eq, Set.mem_inter_iff, Set.mem_Ico, Set.mem_Iic]
  rw [walkIdx_eq_some_iff]
  constructor
  · rintro ⟨h0, hT, _, h2, _⟩
    rw [zero_add] at h2
    exact ⟨⟨h0, hT⟩, h2⟩
  · rintro ⟨⟨h0, hT⟩, h1⟩
    exact ⟨h0, hT, hlen, by rwa [zero_add], fun j hj => absurd hj (Nat.not_lt_zero j)⟩

/-- Draws selecting entry `k+1` form `(Sₖ₊₁, Sₖ₊₂] ∩ (-∞, total)`. -/
theorem walkIdx_sel_succ (ws : List ℝ) (hw : ∀ w ∈ ws, 0 ≤ w) (k : ℕ)
    (hi : k + 1 < ws.length) :
    {r : ℝ | 0 ≤ r ∧ r < ws.sum ∧ walkIdx ws 0 r = some (k+1)}
      = Set.Iio ws.sum ∩ Set.Ioc ((ws.take (k+1)).sum) ((ws.take (k+2)).sum) := by
  ext r
  simp only [Set.mem_setOf_eq, Set.mem_inter_iff, Set.mem_Iio, Set.mem_Ioc]
  rw [walkIdx_eq_some_iff]
  constructor
  · rintro ⟨h0, hT, _, h2, h3⟩
    have h4 := h3 k (by omega)
    rw [zero_add] at h2 h4
    exact ⟨hT, h4, h2⟩
  · rintro ⟨hT, hgt, hle⟩
    have hS : 0 ≤ (ws.take (k+1)).sum := take_sum_nonneg hw (k+1)
    refine ⟨le_of_lt (lt_of_le_of_lt hS hgt), hT, hi, by rwa [zero_add], ?_⟩
    intro j hj
    rw [zero_add]
    have hmono : (ws.take (j+1)).sum ≤ (ws.take (k+1)).sum :=
      take_sum_le_take_sum hw (by omega)
    linarith

/-- C7: in the weighted walk over a pool with nonnegative weights, the set of
draw values in `[0, totalWeight)` that select entry `i` has Lebesgue measure
exactly the weight of entry `i` — each entry's selection probability is
proportional to its weight; and the entry walk of `choose_question` agrees
with the indexed walk. -/
theorem claim_C7 (ws : List ℝ) (hw : ∀ w ∈ ws, 0 ≤ w) (i : ℕ) (hi : i < ws.length) :
    MeasureTheory.volume {r : ℝ | 0 ≤ r ∧ r < ws.sum ∧ walkIdx ws 0 r = some i}
      = ENNReal.ofReal (ws.get ⟨i, hi⟩) ∧
    (∀ (pool : List (String × Question × ℝ)) (upto r : ℝ),
      walkPool pool upto r
        = (walkIdx (pool.map (fun e => e.2.2)) upto r).bind
            (fun j => (pool.get? j).map (fun e => (e.1, e.2.1)))) := by
  constructor
  · have hsum_eq : (ws.take ws.length).sum = ws.sum := by rw [List.take_length]
    cases i with
    | zero =>
      rw [walkIdx_sel_zero ws (by omega)]
      have h1 : (ws.take 1).sum = ws.get ⟨0, hi⟩ := by
        have h2 := List.sum_take_succ ws 0 hi
        simpa using h2
      have hS1 : 0 ≤ (ws.take 1).sum := take_sum_nonneg hw 1
      have hS1T : (ws.take 1).sum ≤ ws.sum := by
        have h3 := take_sum_le_take_sum hw (show 1 ≤ ws.length by omega)
        rwa [hsum_eq] at h3
      rw [vol_Ico_inter_Iic hS1 hS1T, h1]
    | succ k =>
      rw [walkIdx_sel_succ ws hw k hi]
      have hab : (ws.take (k+1)).sum ≤ (ws.take (k+2)).sum :=
        take_sum_le_take_sum hw (by omega)
      have hbT : (ws.take (k+2)).sum ≤ ws.sum := by
        have h3 := take_sum_le_take_sum hw (show k+2 ≤ ws.length by omega)
        rwa [hsum_eq] at h3
      rw [vol_Iio_inter_Ioc hab hbT]
      have h4 := List.sum_take_succ ws (k+1) hi
      rw [h4, add_sub_cancel_left, List.get_eq_getElem]
  · intro pool
    induction pool with
    | nil => intro upto r; rfl
    | cons e rest ih =>
      intro upto r
      obtain ⟨t, q, w⟩ := e
      by_cases hc : r ≤ upto + w
      · simp [walkPool, walkIdx, hc]
      · simp only [walkPool, walkIdx, List.map_cons, if_neg hc]
        rw [ih (upto + w) r]
        cases walkIdx (rest.map fun e => e.2.2) (upto + w) r with
        | none => rfl
        | some j => simp

theorem claim_C7_w :
    MeasureTheory.volume {r : ℝ | 0 ≤ r ∧ r < ([3, 1] : List ℝ).sum ∧
        walkIdx [3, 1] 0 r = some 0}
      = ENNReal.ofReal 3 := by
  have h := (claim_C7 [3, 1] (by norm_num) 0 (by norm_num)).1
  simpa using h
